import Mathlib

/-!
Shallow embedding of the token-budget-aware chunking and sampling core of the
Al-Nass-Extractor repository, together with theorems settling the frozen claims
about it.

Texts are modelled as `List Char` (Python `str`).  The token estimator is an
external collaborator, so the embedded operations are parametrised by a total
estimator `tok : List Char → Nat`; the concrete estimator of
`src/ai_studio_code.py` (`estimate_tokens`, tiktoken with a character-count
fallback) is embedded as `estimate_tokens` over an oracle that may fail, and
`src/py/extract_novel_metadata.py`'s `_count_tokens` (a remote call with no
fallback) is embedded in the `Except` monad as `count_tokensE`.
-/

/-- The whitespace characters stripped by Python's `str.strip()` and used as
separators by `str.split()` (space, tab, newline, carriage return, vertical
tab, form feed). -/
def pySpace (c : Char) : Bool :=
  c = ' ' || c = '\t' || c = '\n' || c = '\r' || c = Char.ofNat 11 || c = Char.ofNat 12

/-- Python `text.strip()`: drop leading and trailing whitespace. -/
def pyStrip (s : List Char) : List Char :=
  ((s.dropWhile pySpace).reverse.dropWhile pySpace).reverse

/-- Python `line.split()` (no separator argument): split on runs of whitespace,
discarding empty fields.  Every returned word is non-empty. -/
def pySplitWs (s : List Char) : List (List Char) :=
  (s.splitOnP pySpace).filter (fun w => !w.isEmpty)

/-- Embeds `estimate_tokens` of `src/ai_studio_code.py` (lines 15-24): ask the
tiktoken oracle for a count; if the oracle is unavailable or fails (`except:`)
fall back to the approximate character-based estimate `len(text) // 3`. -/
def estimate_tokens (oracle : List Char → Option Nat) (text : List Char) : Nat :=
  match oracle text with
  | some n => n
  | none => text.length / 3

/-- The character-based fallback estimate used by `estimate_tokens` when the
tiktoken oracle fails: `len(text) // 3`. -/
def fallbackEstimate (text : List Char) : Nat :=
  text.length / 3

/-- Python `'\n'.join(lines)`. -/
def joinNl (ls : List (List Char)) : List Char :=
  ['\n'].intercalate ls

/-- Python `' '.join(words)`. -/
def joinSp (ws : List (List Char)) : List Char :=
  [' '].intercalate ws

/-- Mutable state of the splitting loops of `split_text_by_tokens`
(`src/ai_studio_code.py` lines 45-88): the accumulated `chunks` list, the
current buffer (`current_chunk` resp. `word_chunk`), and its running token
count (`current_tokens` resp. `word_tokens`). -/
structure SplitSt where
  chunks : List (List Char)
  buf : List (List Char)
  toks : Nat
deriving DecidableEq, Repr

/-- One iteration of the word-level loop of `split_text_by_tokens`
(`src/ai_studio_code.py` lines 59-67): if adding the word would push the word
buffer over `max_tokens` and the buffer is non-empty, flush the buffer (joined
by single spaces) as a chunk and restart the buffer with this word; otherwise
append the word and add its estimate. -/
def wordStep (tok : List Char → Nat) (maxTokens : Nat) (s : SplitSt) (word : List Char) :
    SplitSt :=
  let wtc := tok (word ++ [' '])
  if maxTokens < s.toks + wtc ∧ s.buf ≠ [] then
    ⟨s.chunks ++ [joinSp s.buf], [word], wtc⟩
  else
    ⟨s.chunks, s.buf ++ [word], s.toks + wtc⟩

/-- One iteration of the line-level loop of `split_text_by_tokens`
(`src/ai_studio_code.py` lines 50-84).  If the line alone estimates over
`max_tokens`, it is split at word boundaries by folding `wordStep` over its
words (the word-level flushes append to the same `chunks` list); if the word
buffer ends non-empty, any pending line buffer is flushed and then the word
buffer is emitted.  Otherwise the line is accumulated into the line buffer,
flushing it first when the line would push it over `max_tokens`. -/
def lineStep (tok : List Char → Nat) (maxTokens : Nat) (s : SplitSt) (line : List Char) :
    SplitSt :=
  let lt := tok (line ++ ['\n'])
  if maxTokens < lt then
    let w := (pySplitWs line).foldl (wordStep tok maxTokens) ⟨s.chunks, [], 0⟩
    if w.buf ≠ [] then
      if s.buf ≠ [] then ⟨w.chunks ++ [joinNl s.buf, joinSp w.buf], [], 0⟩
      else ⟨w.chunks ++ [joinSp w.buf], s.buf, s.toks⟩
    else ⟨w.chunks, s.buf, s.toks⟩
  else if maxTokens < s.toks + lt ∧ s.buf ≠ [] then
    ⟨s.chunks ++ [joinNl s.buf], [line], lt⟩
  else
    ⟨s.chunks, s.buf ++ [line], s.toks + lt⟩

/-- Embeds `split_text_by_tokens` of `src/ai_studio_code.py` (lines 27-90),
parametrised by the estimator `tok` (the source calls `estimate_tokens`).
If the whole text estimates within `max_tokens` it is returned as the single
chunk; otherwise the text is split into lines (`text.split('\n')`), the lines
are folded through `lineStep`, and a final non-empty line buffer is flushed. -/
def split_text_by_tokens (tok : List Char → Nat) (text : List Char) (maxTokens : Nat) :
    List (List Char) :=
  if tok text ≤ maxTokens then [text]
  else
    let s := (text.splitOn '\n').foldl (lineStep tok maxTokens) ⟨[], [], 0⟩
    if s.buf ≠ [] then s.chunks ++ [joinNl s.buf] else s.chunks

/-- One `while lo <= hi` iteration structure of the binary search of
`_trim_to_token_limit` (`src/py/extract_novel_metadata.py` lines 94-103),
with explicit fuel (structural recursion): test the character-index midpoint;
a fitting candidate becomes the current `best` and the search continues in
the upper half, otherwise in the lower half.  Bounds are `Int` as in Python
(`hi` becomes `-1` when `mid = 0`), and `/` on `Int` is floor division,
matching Python's `//`.  The interval `hi + 1 - lo` shrinks by at least one
per iteration, so fuel `(hi + 1 - lo).toNat` makes this exactly the source's
unbounded loop (the fuel-exhausted branch is unreachable from `trimSearch`). -/
def trimSearchF (tok : List Char → Nat) (text : List Char) (maxTokens : Nat) :
    Nat → Int → Int → List Char → List Char
  | 0, _, _, best => best
  | fuel + 1, lo, hi, best =>
    if lo ≤ hi then
      let mid := (lo + hi) / 2
      let candidate := text.take mid.toNat
      if tok candidate ≤ maxTokens then
        trimSearchF tok text maxTokens fuel (mid + 1) hi candidate
      else
        trimSearchF tok text maxTokens fuel lo (mid - 1) best
    else best

/-- The binary search loop of `_trim_to_token_limit`: `trimSearchF` run with
the exactly sufficient fuel `(hi + 1 - lo).toNat`. -/
def trimSearch (tok : List Char → Nat) (text : List Char) (maxTokens : Nat)
    (lo hi : Int) (best : List Char) : List Char :=
  trimSearchF tok text maxTokens (hi + 1 - lo).toNat lo hi best

/-- Embeds `_trim_to_token_limit` of `src/py/extract_novel_metadata.py`
(lines 79-105), parametrised by a total estimator `tok` (modelling runs in
which every `_count_tokens` call succeeds).  Whitespace-only text returns
`""`; text that already fits is returned unchanged; otherwise the binary
search runs over `[1, len(text)]` starting from `best = ""`. -/
def trim_to_token_limit (tok : List Char → Nat) (text : List Char) (maxTokens : Nat) :
    List Char :=
  if pyStrip text = [] then []
  else if tok text ≤ maxTokens then text
  else trimSearch tok text maxTokens 1 (text.length : Int) []

/-- Embeds `_count_tokens` of `src/py/extract_novel_metadata.py` (lines
71-77): a single call to the remote Gemini `count_tokens` collaborator.  There
is no `try`/`except` around it, so a failing collaborator makes the call
itself fail. -/
def count_tokensE (oracle : List Char → Except Unit Nat) (text : List Char) :
    Except Unit Nat :=
  oracle text

/-- The binary search loop of `_trim_to_token_limit` with the fallible
counter `count_tokensE` threaded through (fuel-structured like `trimSearchF`,
with fuel `(hi + 1 - lo).toNat` exactly sufficient): a failing count aborts
the search with the error, as the uncaught Python exception would. -/
def trimSearchEF (oracle : List Char → Except Unit Nat) (text : List Char) (maxTokens : Nat) :
    Nat → Int → Int → List Char → Except Unit (List Char)
  | 0, _, _, best => .ok best
  | fuel + 1, lo, hi, best =>
    if lo ≤ hi then
      let mid := (lo + hi) / 2
      let candidate := text.take mid.toNat
      match count_tokensE oracle candidate with
      | .error e => .error e
      | .ok n =>
        if n ≤ maxTokens then
          trimSearchEF oracle text maxTokens fuel (mid + 1) hi candidate
        else
          trimSearchEF oracle text maxTokens fuel lo (mid - 1) best
    else .ok best

/-- The fallible binary search run with its exactly sufficient fuel. -/
def trimSearchE (oracle : List Char → Except Unit Nat) (text : List Char) (maxTokens : Nat)
    (lo hi : Int) (best : List Char) : Except Unit (List Char) :=
  trimSearchEF oracle text maxTokens (hi + 1 - lo).toNat lo hi best

/-- Embeds `_trim_to_token_limit` with the fallible counter `count_tokensE`:
every estimator failure propagates to the caller (the source has no handler
between `_count_tokens` and `_trim_to_token_limit`'s caller). -/
def trim_to_token_limitE (oracle : List Char → Except Unit Nat) (text : List Char)
    (maxTokens : Nat) : Except Unit (List Char) :=
  if pyStrip text = [] then .ok []
  else
    match count_tokensE oracle text with
    | .error e => .error e
    | .ok n =>
      if n ≤ maxTokens then .ok text
      else trimSearchE oracle text maxTokens 1 (text.length : Int) []

/-- Configuration constant `SEGMENT_MAX_TOKENS` of
`src/py/extract_novel_metadata.py` (line 27). -/
def SEGMENT_MAX_TOKENS : Nat := 8000

/-- Configuration constant `TARGET_TOTAL_SAMPLE_TOKENS` of
`src/py/extract_novel_metadata.py` (line 28). -/
def TARGET_TOTAL_SAMPLE_TOKENS : Nat := 22000

/-- Configuration constant of `src/py/extract_novel_metadata.py` line 29 (the
assumed characters-per-token factor, value 4). -/
def TOKEN_TO_CHAR : Nat := 4

/-- The Arabic label of the begin segment, `"[مقتطف من البداية]"`. -/
def labelBegin : List Char := "[مقتطف من البداية]".toList

/-- The Arabic label of the middle segment, `"[مقتطف من منتصف الرواية]"`. -/
def labelMiddle : List Char := "[مقتطف من منتصف الرواية]".toList

/-- The Arabic label of the end segment, `"[مقتطف من النهاية]"`. -/
def labelEnd : List Char := "[مقتطف من النهاية]".toList

/-- The metadata dictionary returned by `_build_representative_sample`
(`src/py/extract_novel_metadata.py`): `blank` is the `{"segments": [],
"total_tokens": 0}` dictionary of the empty-input path (line 118), `sampled`
the full dictionary of lines 162-167 (`segment_max_tokens`,
`target_total_sample_tokens`, `actual_total_sample_tokens`,
`segments_included`). -/
inductive SampleMeta where
  | blank (segments : List (List Char)) (totalTokens : Nat)
  | sampled (segmentMaxTokens targetTotalSampleTokens actualTotalSampleTokens : Nat)
      (segmentsIncluded : List (List Char))
deriving DecidableEq, Repr

/-- The candidate `begins` window of `_build_representative_sample` (line
126): the first `min n (seg_chars * 2)` characters of the stripped text. -/
def beginsWindow (full : List Char) : List Char :=
  full.take (min full.length (SEGMENT_MAX_TOKENS * TOKEN_TO_CHAR * 2))

/-- The candidate `middle` window of `_build_representative_sample` (lines
127-129): `full[max(0, n//2 - seg_chars) : min(n, n//2 + seg_chars)]`
(Nat subtraction models Python's `max(0, ...)`). -/
def middleWindow (full : List Char) : List Char :=
  let n := full.length
  let segChars := SEGMENT_MAX_TOKENS * TOKEN_TO_CHAR
  let middleStart := n / 2 - segChars
  let middleEnd := min n (n / 2 + segChars)
  (full.drop middleStart).take (middleEnd - middleStart)

/-- The candidate `ends` window of `_build_representative_sample` (line 130):
the last `seg_chars * 2` characters, `full[max(0, n - seg_chars*2):]`. -/
def endsWindow (full : List Char) : List Char :=
  full.drop (full.length - SEGMENT_MAX_TOKENS * TOKEN_TO_CHAR * 2)

/-- The labelled segment list of `_build_representative_sample` (lines 137-141
and 154-158): each candidate window trimmed to the given per-segment token
limit and paired with its Arabic label, in begin / middle / end order. -/
def segmentsAt (tok : List Char → Nat) (full : List Char) (limit : Nat) :
    List (List Char × List Char) :=
  [(labelBegin, trim_to_token_limit tok (beginsWindow full) limit),
   (labelMiddle, trim_to_token_limit tok (middleWindow full) limit),
   (labelEnd, trim_to_token_limit tok (endsWindow full) limit)]

/-- The `combined` sample string of `_build_representative_sample` (lines 143
and 159): `"\n\n".join(f"{title}\n{txt}".strip() for title, txt in segments
if txt.strip())`. -/
def combineSegments (segments : List (List Char × List Char)) : List Char :=
  ['\n', '\n'].intercalate
    ((segments.filter (fun p => !(pyStrip p.2).isEmpty)).map
      (fun p => pyStrip (p.1 ++ '\n' :: p.2)))

/-- The combined sample built from the raw candidate windows with a uniform
per-segment token limit. -/
def sampleAt (tok : List Char → Nat) (full : List Char) (limit : Nat) : List Char :=
  combineSegments (segmentsAt tok full limit)

/-- The `segments_included` metadata entry (line 166): the labels of the
segments whose trimmed text is not whitespace-only, in list order. -/
def includedLabels (tok : List Char → Nat) (full : List Char) (limit : Nat) :
    List (List Char) :=
  ((segmentsAt tok full limit).filter (fun p => !(pyStrip p.2).isEmpty)).map Prod.fst

/-- Embeds `_build_representative_sample` of `src/py/extract_novel_metadata.py`
(lines 107-168), parametrised by a total estimator `tok` (modelling runs in
which every `_count_tokens` call succeeds).  Blank text returns the empty
sample with the zero metadata dictionary.  Otherwise the three candidate
windows are trimmed to `SEGMENT_MAX_TOKENS`, combined and measured; if the
total exceeds `TARGET_TOTAL_SAMPLE_TOKENS`, each segment is re-trimmed from
its raw window once with the uniformly scaled limit
`max(2000, int(SEGMENT_MAX_TOKENS * (TARGET_TOTAL_SAMPLE_TOKENS /
max(total_tok, 1))))` (the Python float expression is modelled by exact
rational arithmetic, i.e. `SEGMENT_MAX_TOKENS * TARGET_TOTAL_SAMPLE_TOKENS /
max total_tok 1` with truncating Nat division) and the sample is rebuilt and
re-measured once, with no further correction. -/
def build_representative_sample (tok : List Char → Nat) (text : List Char) :
    List Char × SampleMeta :=
  let full := pyStrip text
  if full = [] then ([], .blank [] 0)
  else
    let combined := sampleAt tok full SEGMENT_MAX_TOKENS
    let totalTok := tok combined
    if TARGET_TOTAL_SAMPLE_TOKENS < totalTok then
      let newLimit :=
        max 2000 (SEGMENT_MAX_TOKENS * TARGET_TOTAL_SAMPLE_TOKENS / max totalTok 1)
      let combined2 := sampleAt tok full newLimit
      (combined2,
       .sampled SEGMENT_MAX_TOKENS TARGET_TOTAL_SAMPLE_TOKENS (tok combined2)
         (includedLabels tok full newLimit))
    else
      (combined,
       .sampled SEGMENT_MAX_TOKENS TARGET_TOTAL_SAMPLE_TOKENS totalTok
         (includedLabels tok full SEGMENT_MAX_TOKENS))

/-- The `while` loop of `chunk_text` (`src/py/ingest_novel.py` lines 58-66)
with explicit fuel: `none` means the fuel ran out before the loop finished.
Each iteration slices `text[start:end]` with `end = min(start + chunk_size,
len(text))`, stops when the slice reaches the end of the text, and otherwise
advances `start` by `chunk_size - overlap` (Nat subtraction; this coincides
with Python for `chunk_size >= overlap`, the domain on which the claims are
evaluated). -/
def chunkTextGo (text : List Char) (chunkSize overlap : Nat) :
    Nat → Nat → List (List Char) → Option (List (List Char))
  | 0, _, _ => none
  | fuel + 1, start, chunks =>
    if start < text.length then
      let e := min (start + chunkSize) text.length
      let chunks2 := chunks ++ [(text.drop start).take (e - start)]
      if e = text.length then some chunks2
      else chunkTextGo text chunkSize overlap fuel (start + (chunkSize - overlap)) chunks2
    else some chunks

/-- `chunk_text(text, chunk_size, overlap)` terminates: some finite fuel lets
its loop run to completion from `start = 0` with an empty chunk list. -/
def chunkTextTerminates (text : List Char) (chunkSize overlap : Nat) : Prop :=
  ∃ fuel result, chunkTextGo text chunkSize overlap fuel 0 [] = some result

/-- A chunk within the splitter's accumulated budget, stated over the chunk's
canonical decompositions (so the predicate constrains the chunk itself, not
an arbitrarily chosen decomposition): either the sum of the per-line
estimates `estimate_tokens(line + '\n')` over the chunk's own lines
(`c.split('\n')`) is at most `max_tokens` — a flushed line buffer — or the
chunk is exactly the single-space join of its whitespace-free words
(`c.split()`) and the sum of the per-word estimates
`estimate_tokens(word + ' ')` over those words is at most `max_tokens`,
except that a chunk consisting of one single word may exceed the limit (that
word alone was already over it and is emitted alone). -/
def ChunkWithinBudget (tok : List Char → Nat) (maxTokens : Nat) (c : List Char) : Prop :=
  ((c.splitOn '\n').map (fun l => tok (l ++ ['\n']))).sum ≤ maxTokens ∨
  (joinSp (pySplitWs c) = c ∧
    (((pySplitWs c).map (fun w => tok (w ++ [' ']))).sum ≤ maxTokens ∨
      ∃ w, pySplitWs c = [w] ∧ maxTokens < tok (w ++ [' '])))

theorem intercalate_cons_ne {α : Type} (sep x : List α) (xs : List (List α)) (h : xs ≠ []) :
    sep.intercalate (x :: xs) = x ++ sep ++ sep.intercalate xs := by
  cases xs with
  | nil => exact absurd rfl h
  | cons y ys =>
    simp [List.intercalate, List.intersperse_cons_cons, List.append_assoc]

theorem intercalate_singleton {α : Type} (sep x : List α) :
    sep.intercalate [x] = x := by
  simp [List.intercalate]

theorem intercalate_append_ne {α : Type} (sep : List α) (xs ys : List (List α))
    (hx : xs ≠ []) (hy : ys ≠ []) :
    sep.intercalate (xs ++ ys) = sep.intercalate xs ++ sep ++ sep.intercalate ys := by
  induction xs with
  | nil => exact absurd rfl hx
  | cons x xs ih =>
    cases xs with
    | nil =>
      rw [List.singleton_append, intercalate_cons_ne sep x ys hy, intercalate_singleton]
    | cons z zs =>
      rw [List.cons_append, intercalate_cons_ne sep x (z :: zs ++ ys) (by simp),
        ih (by simp), intercalate_cons_ne sep x (z :: zs) (by simp)]
      simp [List.append_assoc]

theorem intercalate_ne_nil {α : Type} (sep x : List α) (xs : List (List α)) (hx : x ≠ []) :
    sep.intercalate (x :: xs) ≠ [] := by
  cases xs with
  | nil => rw [intercalate_singleton]; exact hx
  | cons y ys =>
    rw [intercalate_cons_ne sep x (y :: ys) (by simp)]
    simp [hx]

theorem flatten_ne_nil {α : Type} (x : List α) (xs : List (List α)) (hx : x ≠ []) :
    (x :: xs).flatten ≠ [] := by
  simp [List.flatten_cons, hx]

theorem joinNl_map_join (gs : List (List (List Char))) (h : ∀ g ∈ gs, g ≠ []) :
    joinNl (gs.map joinNl) = joinNl gs.flatten := by
  induction gs with
  | nil => rfl
  | cons g gs ih =>
    cases gs with
    | nil => simp [joinNl, intercalate_singleton]
    | cons g2 gs2 =>
      have hg : g ≠ [] := h g (by simp)
      have hflat : (g2 :: gs2).flatten ≠ [] :=
        flatten_ne_nil g2 gs2 (h g2 (by simp))
      have ih2 := ih (fun a ha => h a (List.mem_cons_of_mem _ ha))
      unfold joinNl at ih2 ⊢
      conv_rhs => rw [List.flatten_cons]
      rw [intercalate_append_ne _ g _ hg hflat, List.map_cons,
        intercalate_cons_ne _ _ _ (by simp), ih2]

theorem fallbackEstimate_take_mono (s : List Char) (i j : Nat) (h : i ≤ j) :
    fallbackEstimate (s.take i) ≤ fallbackEstimate (s.take j) := by
  unfold fallbackEstimate
  have := List.length_take i s
  have := List.length_take j s
  exact Nat.div_le_div_right (by omega)

theorem pySplitWs_ne_nil (s w : List Char) (h : w ∈ pySplitWs s) : w ≠ [] := by
  unfold pySplitWs at h
  have := List.of_mem_filter h
  simpa using this

theorem splitOnP_no_sep (p : Char → Bool) : ∀ (xs : List Char), ∀ l ∈ xs.splitOnP p,
    ∀ ch ∈ l, p ch = false := by
  intro xs
  induction xs with
  | nil =>
    intro l hl
    rw [List.splitOnP_nil] at hl
    rcases List.mem_singleton.1 hl with rfl
    intro ch hch
    exact absurd hch (List.not_mem_nil ch)
  | cons x xs ih =>
    intro l hl ch hch
    rw [List.splitOnP_cons] at hl
    by_cases hx : p x
    · rw [if_pos hx] at hl
      rcases List.mem_cons.1 hl with rfl | hl
      · exact absurd hch (List.not_mem_nil ch)
      · exact ih l hl ch hch
    · rw [if_neg hx] at hl
      obtain ⟨h0, t0, heq⟩ := List.exists_cons_of_ne_nil (List.splitOnP_ne_nil p xs)
      rw [heq, List.modifyHead_cons] at hl
      rcases List.mem_cons.1 hl with rfl | hl
      · rcases List.mem_cons.1 hch with rfl | hch
        · simpa using hx
        · exact ih h0 (heq ▸ List.mem_cons_self _ _) ch hch
      · exact ih l (heq ▸ List.mem_cons_of_mem _ hl) ch hch

theorem splitOn_sep_not_mem (a : Char) (xs : List Char) : ∀ l ∈ xs.splitOn a, a ∉ l := by
  intro l hl hmem
  have h := splitOnP_no_sep (· == a) xs l (by simpa [List.splitOn] using hl) a hmem
  simp at h

theorem pySplitWs_wordlike (s w : List Char) (h : w ∈ pySplitWs s) :
    w ≠ [] ∧ ∀ ch ∈ w, pySpace ch = false := by
  refine ⟨pySplitWs_ne_nil s w h, ?_⟩
  unfold pySplitWs at h
  exact splitOnP_no_sep pySpace s w (List.mem_of_mem_filter h)

theorem pySplitWs_joinSp (ws : List (List Char)) (hne : ws ≠ [])
    (hword : ∀ w ∈ ws, w ≠ [] ∧ ∀ ch ∈ w, pySpace ch = false) :
    pySplitWs (joinSp ws) = ws := by
  induction ws with
  | nil => exact absurd rfl hne
  | cons w rest ih =>
    obtain ⟨hw1, hw2⟩ := hword w (List.mem_cons_self _ _)
    have hwne : (!w.isEmpty) = true := by
      cases w
      · exact absurd rfl hw1
      · rfl
    cases rest with
    | nil =>
      unfold pySplitWs joinSp
      rw [intercalate_singleton,
        List.splitOnP_eq_single pySpace w (by intro x hx; simp [hw2 x hx]),
        List.filter_cons, if_pos hwne, List.filter_nil]
    | cons w2 rest2 =>
      have ih2 := ih (by simp) (fun x hx => hword x (List.mem_cons_of_mem _ hx))
      unfold pySplitWs joinSp at ih2 ⊢
      rw [intercalate_cons_ne _ _ _ (by simp)]
      have hassoc : w ++ [' '] ++ [' '].intercalate (w2 :: rest2) =
          w ++ ' ' :: [' '].intercalate (w2 :: rest2) := by
        simp
      rw [hassoc,
        List.splitOnP_first pySpace w (by intro x hx; simp [hw2 x hx]) ' ' (by decide) _,
        List.filter_cons, if_pos hwne, ih2]

/-- C1 counterexample: with the estimator in its documented fallback mode
(`len // 3`), the text of six one-character lines under limit `M = 1` is over
the limit as a whole (estimate 3), yet the splitter returns it as one chunk of
six words: each line estimates to `len("a\n") // 3 = 0`, so the running sum
never exceeds the limit and nothing is ever flushed early.  The returned
chunk's estimate exceeds `M` and it is not a single word. -/
theorem split_chunk_over_limit_cex :
    split_text_by_tokens fallbackEstimate ("a\na\na\na\na\na".toList) 1 =
      [("a\na\na\na\na\na".toList)] ∧
    1 < fallbackEstimate ("a\na\na\na\na\na".toList) ∧
    (pySplitWs ("a\na\na\na\na\na".toList)).length = 6 := by
  refine ⟨by decide, by decide, by decide⟩

/-- C2 counterexample: on the whitespace-only text `" "` with limit 5 the
trimmer returns `""` (the `not text.strip()` guard fires first), although the
whole text is a strictly longer prefix whose estimate, `0`, is within the
limit — so the returned prefix is not the longest fitting one (the fallback
estimator is non-decreasing in prefix length, `fallbackEstimate_take_mono`). -/
theorem trim_whitespace_not_longest_cex :
    trim_to_token_limit fallbackEstimate [' '] 5 = [] ∧
    fallbackEstimate [' '] ≤ 5 ∧
    (trim_to_token_limit fallbackEstimate [' '] 5).length < [' '].length := by
  refine ⟨by decide, by decide, by decide⟩

/-- C3 counterexample: `_count_tokens` has no local fallback, so when the
token-counting collaborator fails, `_trim_to_token_limit` — part of the
sampling core — fails with it: the error is propagated to the caller, not
recovered. -/
theorem count_tokens_failure_propagates_cex :
    trim_to_token_limitE (fun _ => .error ()) ("ab".toList) 5 = .error () := by
  rfl

/-- C3 (amended): in the `ai_studio_code` chunking path the estimator failure
is recovered locally: when the tiktoken oracle fails, `estimate_tokens`
returns the deterministic character-based fallback `len // 3`, and
`split_text_by_tokens` run over the failing oracle coincides with the run
over the pure fallback estimator — chunking completes with no error
surfaced.  (The metadata sampler's `_count_tokens` does not share this
property; see the counterexample.) -/
theorem estimate_tokens_failure_recovered :
    (∀ text, estimate_tokens (fun _ => none) text = fallbackEstimate text) ∧
    (∀ text maxTokens,
      split_text_by_tokens (estimate_tokens (fun _ => none)) text maxTokens =
        split_text_by_tokens fallbackEstimate text maxTokens) :=
  ⟨fun _ => rfl, fun _ _ => rfl⟩

/-- C5 counterexample: for `"abc\ndd ee ff gg"` with limit 2 under the
fallback estimator, the second line is over the limit and word-split; its
first word chunk `"dd ee"` is appended before the pending line buffer
`"abc"` is flushed, so the chunks come out as `["dd ee", "abc", "ff gg"]` —
the original left-to-right word order is not reproduced. -/
theorem split_order_violated_cex :
    split_text_by_tokens fallbackEstimate ("abc\ndd ee ff gg".toList) 2 =
      ["dd ee".toList, "abc".toList, "ff gg".toList] ∧
    ((split_text_by_tokens fallbackEstimate ("abc\ndd ee ff gg".toList) 2).map
        pySplitWs).flatten ≠ pySplitWs ("abc\ndd ee ff gg".toList) := by
  refine ⟨by decide, by decide⟩

/-- C6 counterexample: the whitespace-only text `"  "` estimates to `0 ≤ 3`,
yet the trimmer returns `""` rather than the text unchanged, because the
`not text.strip()` guard precedes the fast-accept check. -/
theorem trim_whitespace_unchanged_cex :
    fallbackEstimate ("  ".toList) ≤ 3 ∧
    trim_to_token_limit fallbackEstimate ("  ".toList) 3 ≠ "  ".toList := by
  refine ⟨by decide, by decide⟩

/-- C6 (amended): whenever the text estimates within the limit and is either
empty or contains at least one non-whitespace character, the trimmer returns
it unchanged via the fast path (whitespace-only non-empty texts are the sole
exception: they are mapped to `""`). -/
theorem trim_within_limit_unchanged (tok : List Char → Nat) (text : List Char)
    (maxTokens : Nat) (h1 : pyStrip text ≠ [] ∨ text = [])
    (h2 : tok text ≤ maxTokens) :
    trim_to_token_limit tok text maxTokens = text := by
  unfold trim_to_token_limit
  rcases h1 with h1 | rfl
  · rw [if_neg h1, if_pos h2]
  · rfl

/-- Witness for `trim_within_limit_unchanged` at `text = "ab"`, `M = 5`,
fallback estimator. -/
theorem trim_within_limit_unchanged_witness :
    (pyStrip ("ab".toList) ≠ [] ∨ "ab".toList = []) ∧
    fallbackEstimate ("ab".toList) ≤ 5 ∧
    trim_to_token_limit fallbackEstimate ("ab".toList) 5 = "ab".toList :=
  ⟨Or.inl (by decide), by decide,
    trim_within_limit_unchanged fallbackEstimate ("ab".toList) 5
      (Or.inl (by decide)) (by decide)⟩

/-- C7 counterexample: on the empty text the splitter returns `[""]` — a
one-element list holding the empty string (the fast path returns `[text]`) —
not an explicitly empty chunk list. -/
theorem split_empty_returns_singleton_cex :
    split_text_by_tokens fallbackEstimate [] 10 = [[]] ∧
    split_text_by_tokens fallbackEstimate [] 10 ≠ [] := by
  refine ⟨by decide, by decide⟩

/-- C7 (amended): on empty or whitespace-only input neither operation errors:
the splitter returns the single chunk `[text]` (the input itself, possibly
empty — not an empty list) whenever the text estimates within the limit, and
the sampler returns the empty combined sample together with the metadata
dictionary recording zero segments and zero total tokens. -/
theorem blank_input_handling (tok : List Char → Nat) (text : List Char) (maxTokens : Nat)
    (hb : pyStrip text = []) (h : tok text ≤ maxTokens) :
    split_text_by_tokens tok text maxTokens = [text] ∧
    build_representative_sample tok text = ([], .blank [] 0) := by
  constructor
  · unfold split_text_by_tokens
    rw [if_pos h]
  · unfold build_representative_sample
    simp [hb]

/-- Witness for `blank_input_handling` at `text = "  "`, `M = 5`, fallback
estimator. -/
theorem blank_input_handling_witness :
    pyStrip ("  ".toList) = [] ∧ fallbackEstimate ("  ".toList) ≤ 5 ∧
    (split_text_by_tokens fallbackEstimate ("  ".toList) 5 = ["  ".toList] ∧
      build_representative_sample fallbackEstimate ("  ".toList) = ([], .blank [] 0)) :=
  ⟨by decide, by decide,
    blank_input_handling fallbackEstimate ("  ".toList) 5 (by decide) (by decide)⟩

/-- The `chunk_text` loop on `"ab"` with `chunk_size = overlap = 1` never
advances `start` (the step `chunk_size - overlap` is `0`) and never reaches
the end of the text, so no amount of fuel completes it. -/
theorem chunkTextGo_stuck (fuel : Nat) :
    ∀ acc, chunkTextGo ("ab".toList) 1 1 fuel 0 acc = none := by
  induction fuel with
  | zero => intro acc; rfl
  | succ n ih =>
    intro acc
    simp only [chunkTextGo]
    norm_num
    exact ih _

/-- C9 counterexample: `chunk_text` does not terminate for every parameter
pair — with `chunk_size = overlap = 1` on the two-character text `"ab"` the
loop runs forever. -/
theorem chunk_text_diverges_cex : ¬ chunkTextTerminates ("ab".toList) 1 1 := by
  rintro ⟨fuel, result, h⟩
  rw [chunkTextGo_stuck fuel] at h
  exact Option.noConfusion h

theorem chunkTextGo_completes (text : List Char) (chunkSize overlap : Nat)
    (hd : overlap < chunkSize) :
    ∀ k start acc, text.length - start ≤ k →
      ∃ result, chunkTextGo text chunkSize overlap (k + 1) start acc = some result := by
  intro k
  induction k with
  | zero =>
    intro start acc hk
    simp only [chunkTextGo]
    rw [if_neg (by omega)]
    exact ⟨acc, rfl⟩
  | succ k ih =>
    intro start acc hk
    simp only [chunkTextGo]
    by_cases hs : start < text.length
    · rw [if_pos hs]
      by_cases he : min (start + chunkSize) text.length = text.length
      · rw [if_pos he]
        exact ⟨_, rfl⟩
      · rw [if_neg he]
        exact ih (start + (chunkSize - overlap)) _ (by omega)
    · rw [if_neg hs]
      exact ⟨acc, rfl⟩

/-- C9 (amended): every splitting/trimming operation of the embedding is a
total function, and `chunk_text` terminates whenever `overlap < chunk_size`
or the whole text fits in a single chunk; only the degenerate parameter
choice `overlap ≥ chunk_size` on a longer text loops forever (see the
counterexample). -/
theorem chunk_text_terminating (text : List Char) (chunkSize overlap : Nat)
    (h : overlap < chunkSize ∨ text.length ≤ chunkSize) :
    chunkTextTerminates text chunkSize overlap := by
  rcases h with h | h
  · obtain ⟨result, hr⟩ := chunkTextGo_completes text chunkSize overlap h
      text.length 0 [] (by omega)
    exact ⟨text.length + 1, result, hr⟩
  · by_cases h0 : 0 < text.length
    · refine ⟨1, [(text.drop 0).take (min (0 + chunkSize) text.length - 0)], ?_⟩
      simp only [chunkTextGo]
      rw [if_pos h0, if_pos (by omega)]
      simp
    · refine ⟨1, [], ?_⟩
      simp only [chunkTextGo]
      rw [if_neg (by omega)]

/-- Witness for `chunk_text_terminating` at `text = "abcdef"`,
`chunk_size = 3`, `overlap = 1`. -/
theorem chunk_text_terminating_witness :
    (1 < 3 ∨ ("abcdef".toList).length ≤ 3) ∧ chunkTextTerminates ("abcdef".toList) 3 1 :=
  ⟨Or.inl (by decide), chunk_text_terminating ("abcdef".toList) 3 1 (Or.inl (by decide))⟩

/-- C8 counterexample: for `"\naa bb"` with limit 1 under the fallback
estimator the first (empty) line is buffered with running count 0; the second
line is over the limit and word-split, emitting `"aa"`, then the pending
buffer of one empty line is flushed as the empty chunk `""`, then `"bb"`
follows: an empty chunk is returned. -/
theorem split_empty_chunk_cex :
    split_text_by_tokens fallbackEstimate ("\naa bb".toList) 1 =
      ["aa".toList, [], "bb".toList] ∧
    [] ∈ split_text_by_tokens fallbackEstimate ("\naa bb".toList) 1 := by
  refine ⟨by decide, by decide⟩

theorem foldl_preserve {σ α : Type} (f : σ → α → σ) (P : σ → Prop) (Q : α → Prop)
    (hstep : ∀ s a, Q a → P s → P (f s a)) :
    ∀ (l : List α) (s : σ), (∀ a ∈ l, Q a) → P s → P (l.foldl f s) := by
  intro l
  induction l with
  | nil => intro s _ hs; exact hs
  | cons a l ih =>
    intro s hq hs
    exact ih (f s a) (fun x hx => hq x (List.mem_cons_of_mem _ hx))
      (hstep s a (hq a (List.mem_cons_self _ _)) hs)

theorem wordStep_nonempty (tok : List Char → Nat) (maxTokens : Nat) (s : SplitSt)
    (w : List Char) (hw : w ≠ [])
    (h : (∀ c ∈ s.chunks, c ≠ []) ∧ ∀ x ∈ s.buf, x ≠ []) :
    (∀ c ∈ (wordStep tok maxTokens s w).chunks, c ≠ []) ∧
      ∀ x ∈ (wordStep tok maxTokens s w).buf, x ≠ [] := by
  obtain ⟨hc, hb⟩ := h
  simp only [wordStep]
  by_cases hcond : maxTokens < s.toks + tok (w ++ [' ']) ∧ s.buf ≠ []
  · rw [if_pos hcond]
    obtain ⟨b, rest, hrest⟩ := List.exists_cons_of_ne_nil hcond.2
    constructor
    · intro c hmem
      rcases List.mem_append.1 hmem with hmem | hmem
      · exact hc c hmem
      · rcases List.mem_singleton.1 hmem with rfl
        rw [hrest]
        exact intercalate_ne_nil _ b rest (hb b (by rw [hrest]; exact List.mem_cons_self _ _))
    · intro x hx
      rcases List.mem_singleton.1 hx with rfl
      exact hw
  · rw [if_neg hcond]
    refine ⟨hc, ?_⟩
    intro x hx
    rcases List.mem_append.1 hx with hx | hx
    · exact hb x hx
    · rcases List.mem_singleton.1 hx with rfl
      exact hw

theorem lineStep_nonempty (tok : List Char → Nat) (maxTokens : Nat) (s : SplitSt)
    (l : List Char) (hl : l ≠ [])
    (h : (∀ c ∈ s.chunks, c ≠ []) ∧ ∀ x ∈ s.buf, x ≠ []) :
    (∀ c ∈ (lineStep tok maxTokens s l).chunks, c ≠ []) ∧
      ∀ x ∈ (lineStep tok maxTokens s l).buf, x ≠ [] := by
  obtain ⟨hc, hb⟩ := h
  simp only [lineStep]
  by_cases hlt : maxTokens < tok (l ++ ['\n'])
  · rw [if_pos hlt]
    have hw := foldl_preserve (wordStep tok maxTokens)
      (fun t => (∀ c ∈ t.chunks, c ≠ []) ∧ ∀ x ∈ t.buf, x ≠ [])
      (fun w => w ≠ [])
      (fun t w hqw hpt => wordStep_nonempty tok maxTokens t w hqw hpt)
      (pySplitWs l) ⟨s.chunks, [], 0⟩ (fun w hmem => pySplitWs_ne_nil l w hmem)
      ⟨hc, by intro x hx; exact absurd hx (List.not_mem_nil x)⟩
    set t := (pySplitWs l).foldl (wordStep tok maxTokens) ⟨s.chunks, [], 0⟩ with ht
    by_cases htb : t.buf ≠ []
    · rw [if_pos htb]
      obtain ⟨wb, wrest, hwrest⟩ := List.exists_cons_of_ne_nil htb
      have hjw : joinSp t.buf ≠ [] := by
        rw [hwrest]
        exact intercalate_ne_nil _ wb wrest
          (hw.2 wb (by rw [hwrest]; exact List.mem_cons_self _ _))
      by_cases hsb : s.buf ≠ []
      · rw [if_pos hsb]
        obtain ⟨b, rest, hrest⟩ := List.exists_cons_of_ne_nil hsb
        refine ⟨?_, by intro x hx; exact absurd hx (List.not_mem_nil x)⟩
        intro c hmem
        rcases List.mem_append.1 hmem with hmem | hmem
        · exact hw.1 c hmem
        · rcases List.mem_cons.1 hmem with rfl | hmem
          · rw [hrest]
            exact intercalate_ne_nil _ b rest
              (hb b (by rw [hrest]; exact List.mem_cons_self _ _))
          · rcases List.mem_singleton.1 hmem with rfl
            exact hjw
      · rw [if_neg hsb]
        refine ⟨?_, hb⟩
        intro c hmem
        rcases List.mem_append.1 hmem with hmem | hmem
        · exact hw.1 c hmem
        · rcases List.mem_singleton.1 hmem with rfl
          exact hjw
    · rw [if_neg htb]
      exact ⟨hw.1, hb⟩
  · rw [if_neg hlt]
    by_cases hcond : maxTokens < s.toks + tok (l ++ ['\n']) ∧ s.buf ≠ []
    · rw [if_pos hcond]
      obtain ⟨b, rest, hrest⟩ := List.exists_cons_of_ne_nil hcond.2
      constructor
      · intro c hmem
        rcases List.mem_append.1 hmem with hmem | hmem
        · exact hc c hmem
        · rcases List.mem_singleton.1 hmem with rfl
          rw [hrest]
          exact intercalate_ne_nil _ b rest (hb b (by rw [hrest]; exact List.mem_cons_self _ _))
      · intro x hx
        rcases List.mem_singleton.1 hx with rfl
        exact hl
    · rw [if_neg hcond]
      refine ⟨hc, ?_⟩
      intro x hx
      rcases List.mem_append.1 hx with hx | hx
      · exact hb x hx
      · rcases List.mem_singleton.1 hx with rfl
        exact hl

/-- C8 (amended): provided the input text is non-empty and none of its lines
is the empty string, no returned chunk is the empty string (the fast path
returns the non-empty text itself; line buffers hold non-empty lines and word
buffers hold non-empty words, so every flushed join is non-empty).  The
counterexample shows both exceptions are real: the fast path on the empty
text returns `[""]`, and a buffered empty line can be flushed as an empty
chunk. -/
theorem split_chunks_nonempty (tok : List Char → Nat) (text : List Char) (maxTokens : Nat)
    (h0 : text ≠ []) (h1 : [] ∉ text.splitOn '\n') :
    ∀ c ∈ split_text_by_tokens tok text maxTokens, c ≠ [] := by
  unfold split_text_by_tokens
  by_cases hfast : tok text ≤ maxTokens
  · rw [if_pos hfast]
    intro c hmem
    rcases List.mem_singleton.1 hmem with rfl
    exact h0
  · rw [if_neg hfast]
    have hfold := foldl_preserve (lineStep tok maxTokens)
      (fun t => (∀ c ∈ t.chunks, c ≠ []) ∧ ∀ x ∈ t.buf, x ≠ [])
      (fun l => l ≠ [])
      (fun t l hql hpt => lineStep_nonempty tok maxTokens t l hql hpt)
      (text.splitOn '\n') ⟨[], [], 0⟩
      (fun l hmem => fun hleq => h1 (hleq ▸ hmem))
      ⟨by intro c hc; exact absurd hc (List.not_mem_nil c),
       by intro x hx; exact absurd hx (List.not_mem_nil x)⟩
    set t := (text.splitOn '\n').foldl (lineStep tok maxTokens) ⟨[], [], 0⟩ with ht
    by_cases htb : t.buf ≠ []
    · rw [if_pos htb]
      intro c hmem
      rcases List.mem_append.1 hmem with hmem | hmem
      · exact hfold.1 c hmem
      · rcases List.mem_singleton.1 hmem with rfl
        obtain ⟨b, rest, hrest⟩ := List.exists_cons_of_ne_nil htb
        rw [hrest]
        exact intercalate_ne_nil _ b rest
          (hfold.2 b (by rw [hrest]; exact List.mem_cons_self _ _))
    · rw [if_neg htb]
      exact hfold.1

/-- Witness for `split_chunks_nonempty` at `text = "ab\ncd"`, `M = 0`,
fallback estimator. -/
theorem split_chunks_nonempty_witness :
    ("ab\ncd".toList ≠ [] ∧ [] ∉ ("ab\ncd".toList).splitOn '\n') ∧
    "ab".toList ∈ split_text_by_tokens fallbackEstimate ("ab\ncd".toList) 0 ∧
    "ab".toList ≠ [] :=
  ⟨⟨by decide, by decide⟩, by decide,
    split_chunks_nonempty fallbackEstimate ("ab\ncd".toList) 0 (by decide) (by decide)
      ("ab".toList) (by decide)⟩

theorem wordStep_budget (tok : List Char → Nat) (maxTokens : Nat) (s : SplitSt)
    (w : List Char) (hq : w ≠ [] ∧ ∀ ch ∈ w, pySpace ch = false)
    (h : (∀ c ∈ s.chunks, tok c ≤ maxTokens ∨ ChunkWithinBudget tok maxTokens c) ∧
      s.toks = (s.buf.map (fun x => tok (x ++ [' ']))).sum ∧
      (s.toks ≤ maxTokens ∨ ∃ x, s.buf = [x] ∧ maxTokens < tok (x ++ [' '])) ∧
      (∀ x ∈ s.buf, x ≠ [] ∧ ∀ ch ∈ x, pySpace ch = false)) :
    (∀ c ∈ (wordStep tok maxTokens s w).chunks,
        tok c ≤ maxTokens ∨ ChunkWithinBudget tok maxTokens c) ∧
      (wordStep tok maxTokens s w).toks =
        ((wordStep tok maxTokens s w).buf.map (fun x => tok (x ++ [' ']))).sum ∧
      ((wordStep tok maxTokens s w).toks ≤ maxTokens ∨
        ∃ x, (wordStep tok maxTokens s w).buf = [x] ∧ maxTokens < tok (x ++ [' '])) ∧
      (∀ x ∈ (wordStep tok maxTokens s w).buf, x ≠ [] ∧ ∀ ch ∈ x, pySpace ch = false) := by
  obtain ⟨hc, hsum, hbound, hword⟩ := h
  simp only [wordStep]
  by_cases hcond : maxTokens < s.toks + tok (w ++ [' ']) ∧ s.buf ≠ []
  · rw [if_pos hcond]
    refine ⟨?_, by simp, ?_, ?_⟩
    · intro c hmem
      rcases List.mem_append.1 hmem with hmem | hmem
      · exact hc c hmem
      · rcases List.mem_singleton.1 hmem with rfl
        have hps := pySplitWs_joinSp s.buf hcond.2 hword
        right
        unfold ChunkWithinBudget
        refine Or.inr ⟨by rw [hps], ?_⟩
        rw [hps]
        rcases hbound with hb | ⟨x, hx, hxo⟩
        · exact Or.inl (hsum ▸ hb)
        · exact Or.inr ⟨x, hx, hxo⟩
    · rcases le_or_lt (tok (w ++ [' '])) maxTokens with hle | hgt
      · exact Or.inl hle
      · exact Or.inr ⟨w, rfl, hgt⟩
    · intro x hx
      rcases List.mem_singleton.1 hx with rfl
      exact hq
  · rw [if_neg hcond]
    refine ⟨hc, ?_, ?_, ?_⟩
    · simp only [List.map_append, List.sum_append, List.map_cons, List.map_nil,
        List.sum_cons, List.sum_nil]
      omega
    · by_cases hover : maxTokens < s.toks + tok (w ++ [' '])
      · have hbuf : s.buf = [] := by
          by_contra hne
          exact hcond ⟨hover, hne⟩
        have htoks : s.toks = 0 := by
          rw [hsum, hbuf]
          rfl
        refine Or.inr ⟨w, by rw [hbuf]; rfl, ?_⟩
        rw [htoks] at hover
        simpa using hover
      · exact Or.inl (le_of_not_lt hover)
    · intro x hx
      rcases List.mem_append.1 hx with hx | hx
      · exact hword x hx
      · rcases List.mem_singleton.1 hx with rfl
        exact hq

theorem lineStep_budget (tok : List Char → Nat) (maxTokens : Nat) (s : SplitSt)
    (l : List Char) (hq : '\n' ∉ l)
    (h : (∀ c ∈ s.chunks, tok c ≤ maxTokens ∨ ChunkWithinBudget tok maxTokens c) ∧
      s.toks = (s.buf.map (fun x => tok (x ++ ['\n']))).sum ∧
      s.toks ≤ maxTokens ∧
      (∀ x ∈ s.buf, '\n' ∉ x)) :
    (∀ c ∈ (lineStep tok maxTokens s l).chunks,
        tok c ≤ maxTokens ∨ ChunkWithinBudget tok maxTokens c) ∧
      (lineStep tok maxTokens s l).toks =
        ((lineStep tok maxTokens s l).buf.map (fun x => tok (x ++ ['\n']))).sum ∧
      (lineStep tok maxTokens s l).toks ≤ maxTokens ∧
      (∀ x ∈ (lineStep tok maxTokens s l).buf, '\n' ∉ x) := by
  obtain ⟨hc, hsum, hbound, hlines⟩ := h
  have hGl : s.buf ≠ [] →
      (tok (joinNl s.buf) ≤ maxTokens ∨ ChunkWithinBudget tok maxTokens (joinNl s.buf)) := by
    intro hsb
    have hsplit : (joinNl s.buf).splitOn '\n' = s.buf := by
      unfold joinNl
      exact List.splitOn_intercalate s.buf '\n' hlines hsb
    right
    unfold ChunkWithinBudget
    left
    rw [hsplit]
    exact hsum ▸ hbound
  simp only [lineStep]
  by_cases hlt : maxTokens < tok (l ++ ['\n'])
  · rw [if_pos hlt]
    have hw := foldl_preserve (wordStep tok maxTokens)
      (fun t => (∀ c ∈ t.chunks, tok c ≤ maxTokens ∨ ChunkWithinBudget tok maxTokens c) ∧
        t.toks = (t.buf.map (fun x => tok (x ++ [' ']))).sum ∧
        (t.toks ≤ maxTokens ∨ ∃ x, t.buf = [x] ∧ maxTokens < tok (x ++ [' '])) ∧
        (∀ x ∈ t.buf, x ≠ [] ∧ ∀ ch ∈ x, pySpace ch = false))
      (fun w => w ≠ [] ∧ ∀ ch ∈ w, pySpace ch = false)
      (fun t w hqw hpt => wordStep_budget tok maxTokens t w hqw hpt)
      (pySplitWs l) ⟨s.chunks, [], 0⟩ (fun w hmem => pySplitWs_wordlike l w hmem)
      ⟨hc, by simp, Or.inl (Nat.zero_le _),
        by intro x hx; exact absurd hx (List.not_mem_nil x)⟩
    set t := (pySplitWs l).foldl (wordStep tok maxTokens) ⟨s.chunks, [], 0⟩ with ht
    have hGw : t.buf ≠ [] →
        (tok (joinSp t.buf) ≤ maxTokens ∨ ChunkWithinBudget tok maxTokens (joinSp t.buf)) := by
      intro htb
      have hps := pySplitWs_joinSp t.buf htb hw.2.2.2
      right
      unfold ChunkWithinBudget
      refine Or.inr ⟨by rw [hps], ?_⟩
      rw [hps]
      rcases hw.2.2.1 with hb | ⟨x, hx, hxo⟩
      · exact Or.inl (hw.2.1 ▸ hb)
      · exact Or.inr ⟨x, hx, hxo⟩
    by_cases htb : t.buf ≠ []
    · rw [if_pos htb]
      by_cases hsb : s.buf ≠ []
      · rw [if_pos hsb]
        refine ⟨?_, by simp, by simp, ?_⟩
        · intro c hmem
          rcases List.mem_append.1 hmem with hmem | hmem
          · exact hw.1 c hmem
          · rcases List.mem_cons.1 hmem with rfl | hmem
            · exact hGl hsb
            · rcases List.mem_singleton.1 hmem with rfl
              exact hGw htb
        · intro x hx
          exact absurd hx (List.not_mem_nil x)
      · rw [if_neg hsb]
        refine ⟨?_, hsum, hbound, hlines⟩
        intro c hmem
        rcases List.mem_append.1 hmem with hmem | hmem
        · exact hw.1 c hmem
        · rcases List.mem_singleton.1 hmem with rfl
          exact hGw htb
    · rw [if_neg htb]
      exact ⟨hw.1, hsum, hbound, hlines⟩
  · rw [if_neg hlt]
    by_cases hcond : maxTokens < s.toks + tok (l ++ ['\n']) ∧ s.buf ≠ []
    · rw [if_pos hcond]
      refine ⟨?_, by simp, by simpa using le_of_not_lt hlt, ?_⟩
      · intro c hmem
        rcases List.mem_append.1 hmem with hmem | hmem
        · exact hc c hmem
        · rcases List.mem_singleton.1 hmem with rfl
          exact hGl hcond.2
      · intro x hx
        rcases List.mem_singleton.1 hx with rfl
        exact hq
    · rw [if_neg hcond]
      refine ⟨hc, ?_, ?_, ?_⟩
      · simp only [List.map_append, List.sum_append, List.map_cons, List.map_nil,
          List.sum_cons, List.sum_nil]
        omega
      · by_cases hover : maxTokens < s.toks + tok (l ++ ['\n'])
        · have hbuf : s.buf = [] := by
            by_contra hne
            exact hcond ⟨hover, hne⟩
          have htoks : s.toks = 0 := by
            rw [hsum, hbuf]
            rfl
          rw [htoks]
          simpa using le_of_not_lt hlt
        · exact le_of_not_lt hover
      · intro x hx
        rcases List.mem_append.1 hx with hx | hx
        · exact hlines x hx
        · rcases List.mem_singleton.1 hx with rfl
          exact hq

/-- C1 (amended): every chunk `c` returned by the splitter either estimates
within `max_tokens` directly (the fast-path whole text), or satisfies the
budget on the accumulated sums the source actually tracks, stated over the
chunk's own canonical decompositions: the sum of
`estimate_tokens(line + '\n')` over `c`'s lines (`c.split('\n')`) is at most
`max_tokens` (a flushed line buffer), or `c` is the single-space join of its
whitespace-free words and the sum of `estimate_tokens(word + ' ')` over those
words is at most `max_tokens` — except that a chunk that is one single word
may exceed the limit (it was already over it alone).  The invariant is on
these running sums: re-estimating the joined chunk itself can exceed
`max_tokens` even for multi-word chunks (see the counterexample). -/
theorem split_chunk_budget_sums (tok : List Char → Nat) (text : List Char) (maxTokens : Nat) :
    ∀ c ∈ split_text_by_tokens tok text maxTokens,
      tok c ≤ maxTokens ∨ ChunkWithinBudget tok maxTokens c := by
  unfold split_text_by_tokens
  by_cases hfast : tok text ≤ maxTokens
  · rw [if_pos hfast]
    intro c hmem
    rcases List.mem_singleton.1 hmem with rfl
    exact Or.inl hfast
  · rw [if_neg hfast]
    have hfold := foldl_preserve (lineStep tok maxTokens)
      (fun t => (∀ c ∈ t.chunks, tok c ≤ maxTokens ∨ ChunkWithinBudget tok maxTokens c) ∧
        t.toks = (t.buf.map (fun x => tok (x ++ ['\n']))).sum ∧
        t.toks ≤ maxTokens ∧
        (∀ x ∈ t.buf, '\n' ∉ x))
      (fun l => '\n' ∉ l)
      (fun t l hql hpt => lineStep_budget tok maxTokens t l hql hpt)
      (text.splitOn '\n') ⟨[], [], 0⟩
      (fun l hmem => splitOn_sep_not_mem '\n' text l hmem)
      ⟨by intro c hc; exact absurd hc (List.not_mem_nil c), by simp, Nat.zero_le _,
        by intro x hx; exact absurd hx (List.not_mem_nil x)⟩
    set t := (text.splitOn '\n').foldl (lineStep tok maxTokens) ⟨[], [], 0⟩ with ht
    by_cases htb : t.buf ≠ []
    · rw [if_pos htb]
      intro c hmem
      rcases List.mem_append.1 hmem with hmem | hmem
      · exact hfold.1 c hmem
      · rcases List.mem_singleton.1 hmem with rfl
        have hsplit : (joinNl t.buf).splitOn '\n' = t.buf := by
          unfold joinNl
          exact List.splitOn_intercalate t.buf '\n' hfold.2.2.2 htb
        right
        unfold ChunkWithinBudget
        left
        rw [hsplit]
        exact hfold.2.1 ▸ hfold.2.2.1
    · rw [if_neg htb]
      exact hfold.1

/-- Witness for `split_chunk_budget_sums` at the fast-path input
`text = "line1\nline2"`, `M = 1000`, fallback estimator. -/
theorem split_chunk_budget_sums_witness :
    ("line1\nline2".toList ∈
      split_text_by_tokens fallbackEstimate ("line1\nline2".toList) 1000) ∧
    (fallbackEstimate ("line1\nline2".toList) ≤ 1000 ∨
      ChunkWithinBudget fallbackEstimate 1000 ("line1\nline2".toList)) :=
  ⟨by decide,
    split_chunk_budget_sums fallbackEstimate ("line1\nline2".toList) 1000
      ("line1\nline2".toList) (by decide)⟩

theorem lineFold_groups (tok : List Char → Nat) (maxTokens : Nat) :
    ∀ (lines : List (List Char)), (∀ l ∈ lines, tok (l ++ ['\n']) ≤ maxTokens) →
    ∀ (s : SplitSt) (groups : List (List (List Char))),
      s.chunks = groups.map joinNl → (∀ g ∈ groups, g ≠ []) →
      ∃ groups2 : List (List (List Char)),
        (lines.foldl (lineStep tok maxTokens) s).chunks = groups2.map joinNl ∧
        (∀ g ∈ groups2, g ≠ []) ∧
        groups2.flatten ++ (lines.foldl (lineStep tok maxTokens) s).buf =
          groups.flatten ++ s.buf ++ lines := by
  intro lines
  induction lines with
  | nil =>
    intro _ s groups hchunks hne
    exact ⟨groups, hchunks, hne, by simp⟩
  | cons l ls ih =>
    intro hfits s groups hchunks hne
    have hl : tok (l ++ ['\n']) ≤ maxTokens := hfits l (List.mem_cons_self _ _)
    have hstep : ∀ u : SplitSt, (l :: ls).foldl (lineStep tok maxTokens) u =
        ls.foldl (lineStep tok maxTokens) (lineStep tok maxTokens u l) :=
      fun u => List.foldl_cons _ _
    rw [hstep]
    have hfits2 : ∀ x ∈ ls, tok (x ++ ['\n']) ≤ maxTokens :=
      fun x hx => hfits x (List.mem_cons_of_mem _ hx)
    by_cases hcond : maxTokens < s.toks + tok (l ++ ['\n']) ∧ s.buf ≠ []
    · have hstep2 : lineStep tok maxTokens s l =
          ⟨s.chunks ++ [joinNl s.buf], [l], tok (l ++ ['\n'])⟩ := by
        simp only [lineStep]
        rw [if_neg (not_lt.2 hl), if_pos hcond]
      rw [hstep2]
      obtain ⟨groups2, hg1, hg2, hg3⟩ := ih hfits2
        ⟨s.chunks ++ [joinNl s.buf], [l], tok (l ++ ['\n'])⟩ (groups ++ [s.buf])
        (by rw [hchunks]; simp) (by
          intro g hg
          rcases List.mem_append.1 hg with hg | hg
          · exact hne g hg
          · rcases List.mem_singleton.1 hg with rfl
            exact hcond.2)
      refine ⟨groups2, hg1, hg2, ?_⟩
      rw [hg3]
      simp [List.append_assoc]
    · have hstep2 : lineStep tok maxTokens s l =
          ⟨s.chunks, s.buf ++ [l], s.toks + tok (l ++ ['\n'])⟩ := by
        simp only [lineStep]
        rw [if_neg (not_lt.2 hl), if_neg hcond]
      rw [hstep2]
      obtain ⟨groups2, hg1, hg2, hg3⟩ := ih hfits2
        ⟨s.chunks, s.buf ++ [l], s.toks + tok (l ++ ['\n'])⟩ groups hchunks hne
      refine ⟨groups2, hg1, hg2, ?_⟩
      rw [hg3]
      simp [List.append_assoc]

/-- C5 (amended): when no line of the text estimates over the limit — i.e. no
word-level splitting occurs — the chunks are consecutive groups of the text's
lines in source order, and joining them back with `'\n'` reproduces the text
exactly.  When a long line does force word-level splitting, the pending line
buffer is flushed only before the *last* word-chunk of that line, so earlier
word-chunks are emitted ahead of older buffered lines and source order is
lost (see the counterexample). -/
theorem split_join_preserves_text (tok : List Char → Nat) (text : List Char)
    (maxTokens : Nat)
    (h : ∀ l ∈ text.splitOn '\n', tok (l ++ ['\n']) ≤ maxTokens) :
    joinNl (split_text_by_tokens tok text maxTokens) = text := by
  unfold split_text_by_tokens
  by_cases hfast : tok text ≤ maxTokens
  · rw [if_pos hfast]
    exact intercalate_singleton _ _
  · rw [if_neg hfast]
    obtain ⟨groups2, hg1, hg2, hg3⟩ := lineFold_groups tok maxTokens
      (text.splitOn '\n') h ⟨[], [], 0⟩ [] rfl
      (by intro g hg; exact absurd hg (List.not_mem_nil g))
    set t := (text.splitOn '\n').foldl (lineStep tok maxTokens) ⟨[], [], 0⟩ with ht
    simp only [List.flatten_nil, List.nil_append] at hg3
    by_cases htb : t.buf ≠ []
    · rw [if_pos htb]
      rw [hg1]
      have hmap : groups2.map joinNl ++ [joinNl t.buf] = (groups2 ++ [t.buf]).map joinNl := by
        simp
      rw [hmap, joinNl_map_join _ (by
        intro g hg
        rcases List.mem_append.1 hg with hg | hg
        · exact hg2 g hg
        · rcases List.mem_singleton.1 hg with rfl
          exact htb)]
      rw [List.flatten_append]
      simp only [List.flatten_cons, List.flatten_nil, List.append_nil]
      rw [hg3]
      exact List.intercalate_splitOn text '\n'
    · rw [if_neg htb]
      push_neg at htb
      rw [hg1, joinNl_map_join _ hg2]
      rw [htb, List.append_nil] at hg3
      rw [hg3]
      exact List.intercalate_splitOn text '\n'

/-- Witness for `split_join_preserves_text` at `text = "line1\nline2"`,
`M = 1000`, fallback estimator. -/
theorem split_join_preserves_text_witness :
    (∀ l ∈ ("line1\nline2".toList).splitOn '\n',
      fallbackEstimate (l ++ ['\n']) ≤ 1000) ∧
    joinNl (split_text_by_tokens fallbackEstimate ("line1\nline2".toList) 1000) =
      "line1\nline2".toList :=
  ⟨by decide,
    split_join_preserves_text fallbackEstimate ("line1\nline2".toList) 1000 (by decide)⟩

theorem trimSearch_spec (tok : List Char → Nat) (text : List Char) (maxTokens : Nat)
    (hmono : ∀ i j : Nat, i ≤ j → tok (text.take i) ≤ tok (text.take j)) :
    ∀ n : Nat, ∀ lo hi : Int, ∀ best : List Char,
      (hi + 1 - lo).toNat ≤ n →
      1 ≤ lo → hi ≤ (text.length : Int) →
      best = text.take (lo - 1).toNat →
      tok best ≤ maxTokens →
      (∀ j : Nat, hi < (j : Int) → j ≤ text.length → maxTokens < tok (text.take j)) →
      trimSearchF tok text maxTokens n lo hi best <+: text ∧
      tok (trimSearchF tok text maxTokens n lo hi best) ≤ maxTokens ∧
      ∀ j : Nat, j ≤ text.length → tok (text.take j) ≤ maxTokens →
        j ≤ (trimSearchF tok text maxTokens n lo hi best).length := by
  intro n
  induction n with
  | zero =>
    intro lo hi best hfuel h1 hhi hbest hbfit hupper
    simp only [trimSearchF]
    subst hbest
    refine ⟨List.take_prefix _ _, hbfit, ?_⟩
    intro j hj hfit
    by_contra hcon
    push_neg at hcon
    have hlen := List.length_take ((lo - 1).toNat) text
    have hjgt : (lo - 1).toNat < j := by omega
    have hji : hi < (j : Int) := by omega
    exact absurd hfit (not_le.2 (hupper j hji hj))
  | succ n ih =>
    intro lo hi best hfuel h1 hhi hbest hbfit hupper
    by_cases hle : lo ≤ hi
    · have hm1 : lo ≤ (lo + hi) / 2 := by omega
      have hm2 : (lo + hi) / 2 ≤ hi := by omega
      simp only [trimSearchF]
      rw [if_pos hle]
      by_cases hcand : tok (text.take ((lo + hi) / 2).toNat) ≤ maxTokens
      · rw [if_pos hcand]
        exact ih ((lo + hi) / 2 + 1) hi _ (by omega) (by omega) hhi
          (by congr 1; omega) hcand hupper
      · rw [if_neg hcand]
        apply ih lo ((lo + hi) / 2 - 1) best (by omega) h1 (by omega) hbest hbfit
        intro j hj hjlen
        by_cases hjh : hi < (j : Int)
        · exact hupper j hjh hjlen
        · have hmidnat : ((lo + hi) / 2).toNat ≤ j := by omega
          have hmm := hmono ((lo + hi) / 2).toNat j hmidnat
          omega
    · simp only [trimSearchF]
      rw [if_neg hle]
      subst hbest
      refine ⟨List.take_prefix _ _, hbfit, ?_⟩
      intro j hj hfit
      by_contra hcon
      push_neg at hcon
      have hlen := List.length_take ((lo - 1).toNat) text
      have hjgt : (lo - 1).toNat < j := by omega
      have hji : hi < (j : Int) := by omega
      exact absurd hfit (not_le.2 (hupper j hji hj))

/-- C2 (amended): for every text that contains a non-whitespace character,
every limit `M` satisfied by the empty prefix, and every estimator that is
non-decreasing in prefix length, `_trim_to_token_limit` returns a prefix of
the text whose estimate is at most `M`, and no longer fitting prefix exists —
the binary search over `[1, len(text)]` finds the longest one.  (On
whitespace-only non-empty texts the `not text.strip()` guard returns `""`
even when longer prefixes fit; see the counterexample.) -/
theorem trim_longest_fitting (tok : List Char → Nat) (text : List Char) (maxTokens : Nat)
    (hb : pyStrip text ≠ [])
    (hmono : ∀ i j : Nat, i ≤ j → tok (text.take i) ≤ tok (text.take j))
    (h0 : tok [] ≤ maxTokens) :
    trim_to_token_limit tok text maxTokens <+: text ∧
    tok (trim_to_token_limit tok text maxTokens) ≤ maxTokens ∧
    ∀ j : Nat, j ≤ text.length → tok (text.take j) ≤ maxTokens →
      j ≤ (trim_to_token_limit tok text maxTokens).length := by
  unfold trim_to_token_limit
  rw [if_neg hb]
  by_cases hfit : tok text ≤ maxTokens
  · rw [if_pos hfit]
    exact ⟨List.prefix_refl _, hfit, fun j hj _ => hj⟩
  · rw [if_neg hfit]
    unfold trimSearch
    have hn : (((text.length : Int)) + 1 - 1).toNat = text.length := by omega
    rw [hn]
    refine trimSearch_spec tok text maxTokens hmono text.length 1 (text.length : Int) []
      (by omega) (by omega) (by omega) (by norm_num) h0 ?_
    intro j hj hjlen
    omega

/-- Witness for `trim_longest_fitting` at `text = "abcdefghijkl"` (12
characters), `M = 2`, fallback estimator: the trimmer returns the 8-character
longest fitting prefix. -/
theorem trim_longest_fitting_witness :
    pyStrip ("abcdefghijkl".toList) ≠ [] ∧
    fallbackEstimate [] ≤ 2 ∧
    (trim_to_token_limit fallbackEstimate ("abcdefghijkl".toList) 2 <+:
        "abcdefghijkl".toList ∧
      fallbackEstimate (trim_to_token_limit fallbackEstimate ("abcdefghijkl".toList) 2) ≤ 2 ∧
      ∀ j : Nat, j ≤ ("abcdefghijkl".toList).length →
        fallbackEstimate (("abcdefghijkl".toList).take j) ≤ 2 →
        j ≤ (trim_to_token_limit fallbackEstimate ("abcdefghijkl".toList) 2).length) :=
  ⟨by decide, by decide,
    trim_longest_fitting fallbackEstimate ("abcdefghijkl".toList) 2 (by decide)
      (fun i j h => fallbackEstimate_take_mono ("abcdefghijkl".toList) i j h) (by decide)⟩

/-- C4 (confirmed): when the combined begin/middle/end sample measures over
`TARGET_TOTAL_SAMPLE_TOKENS`, `_build_representative_sample` performs exactly
one correction pass: every segment is re-trimmed from its raw candidate
window with the single uniformly reduced limit
`max 2000 (SEGMENT_MAX_TOKENS * TARGET_TOTAL_SAMPLE_TOKENS / current_total)`
(integer-truncated scaling, floored at 2000), and the rebuilt sample is
re-measured once and returned as-is together with its metadata — whatever its
new total is, no second correction happens (the right-hand side carries no
condition on the re-measured total). -/
theorem build_sample_single_correction (tok : List Char → Nat) (text : List Char)
    (hb : pyStrip text ≠ [])
    (hover : TARGET_TOTAL_SAMPLE_TOKENS <
      tok (sampleAt tok (pyStrip text) SEGMENT_MAX_TOKENS)) :
    build_representative_sample tok text =
      (sampleAt tok (pyStrip text)
         (max 2000 (SEGMENT_MAX_TOKENS * TARGET_TOTAL_SAMPLE_TOKENS /
           tok (sampleAt tok (pyStrip text) SEGMENT_MAX_TOKENS))),
       SampleMeta.sampled SEGMENT_MAX_TOKENS TARGET_TOTAL_SAMPLE_TOKENS
         (tok (sampleAt tok (pyStrip text)
           (max 2000 (SEGMENT_MAX_TOKENS * TARGET_TOTAL_SAMPLE_TOKENS /
             tok (sampleAt tok (pyStrip text) SEGMENT_MAX_TOKENS)))))
         (includedLabels tok (pyStrip text)
           (max 2000 (SEGMENT_MAX_TOKENS * TARGET_TOTAL_SAMPLE_TOKENS /
             tok (sampleAt tok (pyStrip text) SEGMENT_MAX_TOKENS))))) := by
  have hmax : max (tok (sampleAt tok (pyStrip text) SEGMENT_MAX_TOKENS)) 1 =
      tok (sampleAt tok (pyStrip text) SEGMENT_MAX_TOKENS) := by
    have := hover
    unfold TARGET_TOTAL_SAMPLE_TOKENS at this
    omega
  simp only [build_representative_sample]
  rw [if_neg hb, if_pos hover, hmax]

/-- Witness for `build_sample_single_correction` with the estimator
`3000 * length` (each character is expensive, so the label-bearing combined
sample is far over budget) on a short two-word text. -/
theorem build_sample_single_correction_witness :
    pyStrip ("abcdefghij klmnopqrst".toList) ≠ [] ∧
    TARGET_TOTAL_SAMPLE_TOKENS <
      (fun s : List Char => 3000 * s.length)
        (sampleAt (fun s : List Char => 3000 * s.length)
          (pyStrip ("abcdefghij klmnopqrst".toList)) SEGMENT_MAX_TOKENS) ∧
    build_representative_sample (fun s : List Char => 3000 * s.length)
        ("abcdefghij klmnopqrst".toList) =
      (sampleAt (fun s : List Char => 3000 * s.length)
         (pyStrip ("abcdefghij klmnopqrst".toList))
         (max 2000 (SEGMENT_MAX_TOKENS * TARGET_TOTAL_SAMPLE_TOKENS /
           (fun s : List Char => 3000 * s.length)
             (sampleAt (fun s : List Char => 3000 * s.length)
               (pyStrip ("abcdefghij klmnopqrst".toList)) SEGMENT_MAX_TOKENS))),
       SampleMeta.sampled SEGMENT_MAX_TOKENS TARGET_TOTAL_SAMPLE_TOKENS
         ((fun s : List Char => 3000 * s.length)
           (sampleAt (fun s : List Char => 3000 * s.length)
             (pyStrip ("abcdefghij klmnopqrst".toList))
             (max 2000 (SEGMENT_MAX_TOKENS * TARGET_TOTAL_SAMPLE_TOKENS /
               (fun s : List Char => 3000 * s.length)
                 (sampleAt (fun s : List Char => 3000 * s.length)
                   (pyStrip ("abcdefghij klmnopqrst".toList)) SEGMENT_MAX_TOKENS)))))
         (includedLabels (fun s : List Char => 3000 * s.length)
           (pyStrip ("abcdefghij klmnopqrst".toList))
           (max 2000 (SEGMENT_MAX_TOKENS * TARGET_TOTAL_SAMPLE_TOKENS /
             (fun s : List Char => 3000 * s.length)
               (sampleAt (fun s : List Char => 3000 * s.length)
                 (pyStrip ("abcdefghij klmnopqrst".toList)) SEGMENT_MAX_TOKENS))))) :=
  ⟨by decide, by decide,
    build_sample_single_correction (fun s : List Char => 3000 * s.length)
      ("abcdefghij klmnopqrst".toList) (by decide) (by decide)⟩

/-- C10 (confirmed): for non-blank input the returned metadata is consistent
with the returned sample: there is a single per-segment limit (the original
`SEGMENT_MAX_TOKENS` or the corrected one) such that the returned sample is
the combined sample at that limit, `actual_total_sample_tokens` is exactly the
estimator's count of that returned sample, and `segments_included` lists the
labels of precisely the segments (at that limit) whose trimmed text is not
whitespace-only, in begin / middle / end order. -/
theorem build_sample_meta_consistent (tok : List Char → Nat) (text : List Char)
    (hb : pyStrip text ≠ []) :
    ∃ limit : Nat,
      build_representative_sample tok text =
        (sampleAt tok (pyStrip text) limit,
         SampleMeta.sampled SEGMENT_MAX_TOKENS TARGET_TOTAL_SAMPLE_TOKENS
           (tok (sampleAt tok (pyStrip text) limit))
           (includedLabels tok (pyStrip text) limit)) := by
  unfold build_representative_sample
  rw [if_neg hb]
  by_cases hover : TARGET_TOTAL_SAMPLE_TOKENS <
      tok (sampleAt tok (pyStrip text) SEGMENT_MAX_TOKENS)
  · rw [if_pos hover]
    exact ⟨_, rfl⟩
  · rw [if_neg hover]
    exact ⟨_, rfl⟩

/-- Witness for `build_sample_meta_consistent` at `text = "ab"` with the
fallback estimator. -/
theorem build_sample_meta_consistent_witness :
    pyStrip ("ab".toList) ≠ [] ∧
    ∃ limit : Nat,
      build_representative_sample fallbackEstimate ("ab".toList) =
        (sampleAt fallbackEstimate (pyStrip ("ab".toList)) limit,
         SampleMeta.sampled SEGMENT_MAX_TOKENS TARGET_TOTAL_SAMPLE_TOKENS
           (fallbackEstimate (sampleAt fallbackEstimate (pyStrip ("ab".toList)) limit))
           (includedLabels fallbackEstimate (pyStrip ("ab".toList)) limit)) :=
  ⟨by decide, build_sample_meta_consistent fallbackEstimate ("ab".toList) (by decide)⟩
